import Mathlib

/-!
# Verification of the tech-transfer scraping pipeline

A shallow embedding of the crawl/extract core of the `scraping_agent`
repository.  Pure fragments of the Python sources are translated into Lean
functions; effectful fragments (network fetches, the language-model call,
the browser) are modelled by explicit function parameters of `Except`/`Option`
type, and the per-page control loops become explicit recursions over the
page structure.  File names in section headers point at the Python source
each definition embeds.
-/

namespace Scrape

/-! ## JSON values and a model of `json.loads`

Python's `json` module is an external collaborator of the scrapers; we model
its values by the inductive `Json` and `json.loads` by a fueled
recursive-descent parser `json_loads` over the JSON grammar (whitespace,
literals, numbers, strings with the standard escapes, arrays, objects).
Numbers are kept as their lexemes (the scrapers never do arithmetic on
parsed numbers), and duplicate object keys are kept in order of appearance.
-/

inductive Json where
  | null : Json
  | bool : Bool → Json
  | num : String → Json
  | str : String → Json
  | arr : List Json → Json
  | obj : List (String × Json) → Json
deriving Repr

/-- JSON insignificant whitespace. -/
def isJsonWs (c : Char) : Bool :=
  c = ' ' || c = '\t' || c = '\n' || c = '\r'

/-- Drop leading JSON whitespace. -/
def skipWs : List Char → List Char
  | [] => []
  | c :: cs => if isJsonWs c then skipWs cs else c :: cs

/-- Hex digit value, if any. -/
def hexVal (c : Char) : Option Nat :=
  if '0' ≤ c ∧ c ≤ '9' then some (c.toNat - '0'.toNat)
  else if 'a' ≤ c ∧ c ≤ 'f' then some (c.toNat - 'a'.toNat + 10)
  else if 'A' ≤ c ∧ c ≤ 'F' then some (c.toNat - 'A'.toNat + 10)
  else none

/-- Parse the body of a JSON string literal (the opening quote already
consumed), returning the decoded characters and the rest of the input. -/
def parseStringBody : List Char → List Char → Option (String × List Char)
  | acc, '"' :: rest => some (String.mk acc.reverse, rest)
  | acc, '\\' :: e :: rest =>
    if e = '"' then parseStringBody ('"' :: acc) rest
    else if e = '\\' then parseStringBody ('\\' :: acc) rest
    else if e = '/' then parseStringBody ('/' :: acc) rest
    else if e = 'b' then parseStringBody (Char.ofNat 8 :: acc) rest
    else if e = 'f' then parseStringBody (Char.ofNat 12 :: acc) rest
    else if e = 'n' then parseStringBody ('\n' :: acc) rest
    else if e = 'r' then parseStringBody ('\r' :: acc) rest
    else if e = 't' then parseStringBody ('\t' :: acc) rest
    else if e = 'u' then
      match rest with
      | h1 :: h2 :: h3 :: h4 :: rest' =>
        match hexVal h1, hexVal h2, hexVal h3, hexVal h4 with
        | some a, some b, some c, some d =>
          parseStringBody (Char.ofNat (((a * 16 + b) * 16 + c) * 16 + d) :: acc) rest'
        | _, _, _, _ => none
      | _ => none
    else none
  | acc, c :: rest =>
    if c.toNat < 32 then none else parseStringBody (c :: acc) rest
  | _, [] => none

/-- One or more decimal digits. -/
def parseDigits : List Char → List Char → Option (List Char × List Char)
  | acc, c :: rest =>
    if c.isDigit then
      match parseDigits (c :: acc) rest with
      | some r => some r
      | none => some ((c :: acc).reverse, rest)
    else if acc.isEmpty then none else some (acc.reverse, c :: rest)
  | acc, [] => if acc.isEmpty then none else some (acc.reverse, [])

/-- Parse a JSON number lexeme: `-? (0 | [1-9][0-9]*) frac? exp?`. -/
def parseNumber (cs : List Char) : Option (String × List Char) := do
  let (sign, cs) := match cs with
    | '-' :: rest => (['-'], rest)
    | _ => ([], cs)
  let (intPart, cs) ← parseDigits [] cs
  -- JSON forbids leading zeros in a multi-digit integer part
  if intPart.length > 1 ∧ intPart.headD '0' = '0' then none else
  let (fracPart, cs) ← match cs with
    | '.' :: rest => do
        let (ds, cs') ← parseDigits [] rest
        pure ('.' :: ds, cs')
    | _ => pure ([], cs)
  let (expPart, cs) ← match cs with
    | e :: rest =>
      if e = 'e' ∨ e = 'E' then
        match rest with
        | s :: rest' =>
          if s = '+' ∨ s = '-' then do
            let (ds, cs') ← parseDigits [] rest'
            pure (e :: s :: ds, cs')
          else do
            let (ds, cs') ← parseDigits [] rest
            pure (e :: ds, cs')
        | [] => none
      else pure (([] : List Char), e :: rest)
    | [] => pure ([], [])
  pure (String.mk (sign ++ intPart ++ fracPart ++ expPart), cs)

/-- Python `dict` item assignment `d[k] = v`: if the key is present its value
is updated in place, otherwise the pair is appended (insertion order kept). -/
def dictInsert (kvs : List (String × Json)) (k : String) (v : Json) :
    List (String × Json) :=
  if kvs.any (fun p => p.1 == k) then
    kvs.map (fun p => if p.1 == k then (p.1, v) else p)
  else kvs ++ [(k, v)]

/-- Python builds JSON objects by inserting members left to right into a
`dict`: a duplicate key keeps its first position and takes its last value. -/
def collapseKeys (kvs : List (String × Json)) : List (String × Json) :=
  kvs.foldl (fun acc p => dictInsert acc p.1 p.2) []

mutual

/-- Fueled parser for one JSON value; fuel bounds the nesting depth. -/
def parseValue : Nat → List Char → Option (Json × List Char)
  | 0, _ => none
  | fuel + 1, cs =>
    match skipWs cs with
    | 'n' :: 'u' :: 'l' :: 'l' :: rest => some (Json.null, rest)
    | 't' :: 'r' :: 'u' :: 'e' :: rest => some (Json.bool true, rest)
    | 'f' :: 'a' :: 'l' :: 's' :: 'e' :: rest => some (Json.bool false, rest)
    | '"' :: rest =>
      match parseStringBody [] rest with
      | some (s, rest') => some (Json.str s, rest')
      | none => none
    | '[' :: rest =>
      (match skipWs rest with
       | ']' :: rest' => some (Json.arr [], rest')
       | _ =>
         match parseItems fuel rest with
         | some (vs, rest') => some (Json.arr vs, rest')
         | none => none)
    | '\x7b' :: rest =>
      (match skipWs rest with
       | '\x7d' :: rest' => some (Json.obj [], rest')
       | _ =>
         match parseMembers fuel rest with
         | some (kvs, rest') => some (Json.obj (collapseKeys kvs), rest')
         | none => none)
    | c :: rest =>
      if c = '-' ∨ c.isDigit then
        match parseNumber (c :: rest) with
        | some (lexeme, rest') => some (Json.num lexeme, rest')
        | none => none
      else none
    | [] => none

/-- Comma-separated JSON values up to a closing `]`. -/
def parseItems : Nat → List Char → Option (List Json × List Char)
  | 0, _ => none
  | fuel + 1, cs =>
    match parseValue fuel cs with
    | none => none
    | some (v, rest) =>
      match skipWs rest with
      | ',' :: rest' =>
        (match parseItems fuel rest' with
         | some (vs, rest'') => some (v :: vs, rest'')
         | none => none)
      | ']' :: rest' => some ([v], rest')
      | _ => none

/-- Comma-separated `"key": value` members up to a closing brace. -/
def parseMembers : Nat → List Char → Option (List (String × Json) × List Char)
  | 0, _ => none
  | fuel + 1, cs =>
    match skipWs cs with
    | '"' :: rest =>
      (match parseStringBody [] rest with
       | none => none
       | some (k, rest') =>
         match skipWs rest' with
         | ':' :: rest'' =>
           (match parseValue fuel rest'' with
            | none => none
            | some (v, rest3) =>
              match skipWs rest3 with
              | ',' :: rest4 =>
                (match parseMembers fuel rest4 with
                 | some (kvs, rest5) => some ((k, v) :: kvs, rest5)
                 | none => none)
              | '\x7d' :: rest4 => some ([(k, v)], rest4)
              | _ => none)
         | _ => none)
    | _ => none

end

/-- Model of Python's `json.loads`: parse one JSON value and require that
only whitespace follows; any failure is `none` (the `json.JSONDecodeError`
case of the source). -/
def json_loads (s : String) : Option Json :=
  match parseValue (s.length + 2) s.data with
  | some (j, rest) => if skipWs rest = [] then some j else none
  | none => none

/-! ## The extraction client
From `src/scrapers/mit_scraper.py` (`ContentExtractor._parse_llm_response`,
`ContentExtractor.extract_info`).  The identical code appears in
`umich_scraper.py` and `stanford_scraper_parallel.py`, and inline in
`stanford_scraper.py` (`extract_info_with_llm`).  The language-model call is
external; `extract_info` is modelled as a function of the response text it
produces. -/

/-- Lookup in a JSON object (Python `d[k]` / `d.get(k)`), first match. -/
def getKey (j : Json) (k : String) : Option Json :=
  match j with
  | Json.obj kvs => (kvs.find? (fun p => p.1 == k)).map (fun p => p.2)
  | _ => none

/-- The canonical all-empty five-field record returned on parse failure. -/
def emptyRecordJson : Json :=
  Json.obj [("ip_name", Json.str ""), ("ip_number", Json.str ""),
            ("published_date", Json.str ""), ("ip_description", Json.str ""),
            ("patents", Json.str "")]

/-- The five field names of the Record shape. -/
def recordKeys : List String :=
  ["ip_name", "ip_number", "published_date", "ip_description", "patents"]

/-- `j` is a mapping containing exactly the five Record keys. -/
def hasRecordShape : Json → Bool
  | Json.obj kvs =>
    recordKeys.all (fun k => kvs.any (fun p => p.1 == k)) &&
      kvs.all (fun p => recordKeys.contains p.1)
  | _ => false

/-- Python's `str` whitespace (the ASCII part, which is what the scrapers
ever meet): used by `str.strip()`. -/
def isPyWs (c : Char) : Bool :=
  c = ' ' || c = '\t' || c = '\n' || c = '\r' || c = '\x0b' || c = '\x0c'

/-- Python `str.strip()`: drop leading and trailing whitespace. -/
def pyStrip (s : String) : String :=
  String.mk (((s.data.dropWhile fun c => isPyWs c).reverse.dropWhile
    fun c => isPyWs c).reverse)

/-- Python `s.startswith(pre)`. -/
def pyStartsWith (s pre : String) : Bool :=
  pre.data.isPrefixOf s.data

/-- Helper for `splitLines`. -/
def splitLinesAux : List Char → List Char → List String
  | acc, [] => [String.mk acc.reverse]
  | acc, c :: cs =>
    if c = '\n' then String.mk acc.reverse :: splitLinesAux [] cs
    else splitLinesAux (c :: acc) cs

/-- Python `s.split("\n")`. -/
def splitLines (s : String) : List String :=
  splitLinesAux [] s.data

/-- The fence-stripping step of `_parse_llm_response`:
`"\n".join(content.split("\n")[1:-1])`. -/
def stripFence (content : String) : String :=
  String.intercalate "\n" (((splitLines content).drop 1).dropLast)

/-- The content actually handed to `json.loads` by `_parse_llm_response`. -/
def effectiveContent (content : String) : String :=
  if pyStartsWith content "```" then stripFence content else content

/-- `ContentExtractor._parse_llm_response`: strip a leading fenced block if
present, parse as JSON, and degrade to the all-empty record when
`json.loads` raises `JSONDecodeError`. -/
def parse_llm_response (content : String) : Json :=
  match json_loads (effectiveContent content) with
  | some j => j
  | none => emptyRecordJson

/-- `ContentExtractor.extract_info` as a function of the model's response
text: the source calls `_parse_llm_response(response... .content.strip())`. -/
def extract_info (responseContent : String) : Json :=
  parse_llm_response (pyStrip responseContent)

/-! ## Detail-page workers
`process_detail_page` from `src/scrapers/mit_scraper.py` (identical in
`umich_scraper.py` and `stanford_scraper_parallel.py`), and `process_item`
from `src/scrapers/stanford_scraper.py`.  The Jina fetch and the LLM call
are modelled as `Except`-valued parameters (`Except.error` = the call
raised).  The assignment `extracted_data["page_url"] = detail_url` raises
`TypeError` when the parsed JSON is not an object; in the source that is
caught by the surrounding `except`. -/

/-- The fallback record built in `process_detail_page`'s `except` branch:
all five fields empty, `page_url` populated. -/
def errRecordJson (url : String) : Json :=
  Json.obj [("ip_name", Json.str ""), ("ip_number", Json.str ""),
            ("published_date", Json.str ""), ("ip_description", Json.str ""),
            ("patents", Json.str ""), ("page_url", Json.str url)]

/-- `process_detail_page` (MIT scraper): fetch markdown, extract, attach
`page_url`; any raised error degrades to the empty-fields record. -/
def process_detail_page (fetchMd : String → Except String String)
    (llm : String → Except String String) (url : String) : Json :=
  match fetchMd url with
  | Except.error _ => errRecordJson url
  | Except.ok md =>
    match llm md with
    | Except.error _ => errRecordJson url
    | Except.ok content =>
      match extract_info content with
      | Json.obj kvs => Json.obj (dictInsert kvs "page_url" (Json.str url))
      | _ => errRecordJson url

/-- `process_item` (Stanford scraper): same pipeline, but the `except`
branch returns `None` instead of a record. -/
def process_item (fetchMd : String → Except String String)
    (llm : String → Except String String) (url : String) : Option Json :=
  match fetchMd url with
  | Except.error _ => none
  | Except.ok md =>
    match llm md with
    | Except.error _ => none
    | Except.ok content =>
      match extract_info content with
      | Json.obj kvs => some (Json.obj (dictInsert kvs "page_url" (Json.str url)))
      | _ => none

/-! ## Records and the durable-store merge
From `src/scrapers/umich_scraper.py` (`TechTransferScraper._save_results`).
Harvested results are Python dicts with the six keys; at the store level we
embed them as the `Record` structure (`page_url` is the spec's `sourceURL`).
-/

structure Record where
  ip_name : String
  ip_number : String
  published_date : String
  ip_description : String
  patents : String
  page_url : String
deriving DecidableEq, Repr

/-- The `page_url` column of a store. -/
def urlsOf (es : List Record) : List String :=
  es.map fun r => r.page_url

/-- Index of the LAST occurrence of `u`, if any: the dict comprehension
`{r.get('page_url'): i for i, r in enumerate(existing_results)}` lets a
later duplicate override an earlier one. -/
def lastIdxU : List String → String → Option Nat
  | [], _ => none
  | v :: vs, u =>
    match lastIdxU vs u with
    | some i => some (i + 1)
    | none => if v = u then some 0 else none

/-- One iteration of the `for result in results` loop of `_save_results`,
carrying the store and the `seen_urls` dict. -/
def mergeStep (st : List Record × (String → Option Nat)) (r : Record) :
    List Record × (String → Option Nat) :=
  match st.2 r.page_url with
  | some i => (st.1.set i r, st.2)
  | none =>
    (st.1 ++ [r],
     fun u => if u = r.page_url then some st.1.length else st.2 u)

/-- The merge performed by `TechTransferScraper._save_results`: build
`seen_urls` from the existing store, then upsert each new result in order
(update in place when the URL is known, append otherwise). -/
def save_results_merge (existing newResults : List Record) : List Record :=
  (newResults.foldl mergeStep (existing, lastIdxU (urlsOf existing))).1

/-- Upsert of a single record, with the seen map recomputed from the store;
`save_results_merge` is proved equal to folding this. -/
def merge1 (es : List Record) (r : Record) : List Record :=
  match lastIdxU (urlsOf es) r.page_url with
  | some i => es.set i r
  | none => es ++ [r]

/-- Last record in a batch carrying a given URL ("last write wins"). -/
def lastRec : List Record → String → Option Record
  | [], _ => none
  | r :: rs, u =>
    match lastRec rs u with
    | some x => some x
    | none => if r.page_url = u then some r else none

/-! ## The bounded pool and the per-page collection loops
`multiprocessing.Pool.imap` (`stanford_scraper_parallel.py` line 179,
`mit_scraper.py` line 208) and the ordered iteration over
`ProcessPoolExecutor` futures (`umich_scraper.py` lines 269-277) both yield
results in `detail_urls` order even though workers complete in an arbitrary
order.  We model the pool run explicitly: a completion schedule (a list of
slot indices) fills a result slot per completed worker, and the output is
read back in slot order. -/

/-- Fill result slots in completion order: worker `i` stores `vals i`. -/
def fillSlots (vals : Nat → Record) (slots : List (Option Record))
    (order : List Nat) : List (Option Record) :=
  order.foldl (fun acc i => acc.set i (some (vals i))) slots

/-- The pool run for `pool.imap(process_func, detail_urls)` under a given
completion schedule: slots indexed like `detail_urls`, read back in order. -/
def imapPool (f : String → Record) (urls : List String) (order : List Nat) :
    List (Option Record) :=
  fillSlots (fun i => f (urls.getD i "")) (List.replicate urls.length none) order

/-- A schedule is complete when every worker index has completed. -/
def completeSchedule (n : Nat) (order : List Nat) : Prop :=
  ∀ i, i < n → i ∈ order

/-- Python `int(s)` restricted to what `ValueError` tolerates: optional
surrounding whitespace, an optional sign, one or more decimal digits. -/
def pyDigitsToNat (ds : List Char) : Option Nat :=
  if ds ≠ [] ∧ ds.all Char.isDigit then
    some (ds.foldl (fun a c => a * 10 + (c.toNat - 48)) 0)
  else none

/-- Python `int(s)` (returns `none` where Python raises `ValueError`). -/
def pyInt (s : String) : Option Int :=
  match (pyStrip s).data with
  | '-' :: ds => (pyDigitsToNat ds).map fun n => -(n : Int)
  | '+' :: ds => (pyDigitsToNat ds).map fun n => (n : Int)
  | ds => (pyDigitsToNat ds).map fun n => (n : Int)

/-- `TechTransferScraper._should_stop_scraping` of
`stanford_scraper_parallel.py`: stop when the IP number is `S`-prefixed
with numeric part at most 17. -/
def stanfordStop (r : Record) : Bool :=
  if r.ip_number = "" then false
  else if ¬ pyStartsWith r.ip_number "S" then false
  else
    match pyInt (String.mk (r.ip_number.data.drop 1)) with
    | some n => n ≤ 17
    | none => false

/-- The result-collection loop of `stanford_scraper_parallel.py` lines
184-190: check the stop condition BEFORE appending, breaking out when it
fires (the triggering record is not appended). -/
def stanfordCollect (stop : Record → Bool) :
    List Record → List Record → List Record × Bool
  | results, [] => (results, false)
  | results, r :: rest =>
    if stop r then (results, true)
    else stanfordCollect stop (results ++ [r]) rest

/-- `_should_stop_scraping` of `mit_scraper.py`/`umich_scraper.py`: purely
counter-based limits (`max_results`, then `max_pages`; `0` = no limit). -/
def should_stop_scraping (max_results max_pages num_results num_pages : Nat) :
    Bool :=
  if max_results > 0 ∧ num_results ≥ max_results then true
  else if max_pages > 0 ∧ num_pages ≥ max_pages then true
  else false

/-- The result-collection loop of `umich_scraper.py` lines 294-301: append
and count FIRST, then check the stop condition, breaking out when it fires
(the triggering record has already been appended). -/
def umichCollect (max_results max_pages num_pages : Nat) :
    List Record → Nat → List Record → List Record × Nat × Bool
  | results, num_results, [] => (results, num_results, false)
  | results, num_results, r :: rest =>
    let results' := results ++ [r]
    let num_results' := num_results + 1
    if should_stop_scraping max_results max_pages num_results' num_pages then
      (results', num_results', true)
    else umichCollect max_results max_pages num_pages results' num_results' rest

/-- One listing page of the Stanford parallel scraper: run the pool on the
page's URLs under a completion schedule, then collect under the stop
condition. -/
def stanfordPage (stop : Record → Bool) (fetch : String → Record)
    (urls : List String) (order : List Nat) (results : List Record) :
    List Record × Bool :=
  stanfordCollect stop results ((imapPool fetch urls order).filterMap id)

/-- One listing page of the Michigan scraper, likewise. -/
def umichPage (max_results max_pages num_pages : Nat) (fetch : String → Record)
    (urls : List String) (order : List Nat) (results : List Record)
    (num_results : Nat) : List Record × Nat × Bool :=
  umichCollect max_results max_pages num_pages results num_results
    ((imapPool fetch urls order).filterMap id)

/-! ## URL collection and seen-set filtering
`umich_scraper.py` lines 246-256 (filters against the loaded store) and
`mit_scraper.py` lines 193-199 (no filtering). -/

/-- The URL-collection loop of `umich_scraper.py`: walk the first
`remaining_slots` items, resolve relative links, and skip URLs already in
`processed_urls`. -/
def umichCollectUrls (relative_links : Bool) (resolve : String → String)
    (items : List String) (remaining_slots : Nat) (processed : List String) :
    List String :=
  (items.take remaining_slots).foldl
    (fun acc item =>
      let u := if relative_links then resolve item else item
      if processed.contains u then acc else acc ++ [u])
    []

/-- The URL-collection loop of `mit_scraper.py`: resolve every item's link;
no seen-set is consulted. -/
def mitCollectUrls (relative_links : Bool) (resolve : String → String)
    (items : List String) : List String :=
  items.foldl
    (fun acc item => acc ++ [if relative_links then resolve item else item]) []

/-! ## The MIT listing-page traversal
`mit_scraper.py` `TechTransferScraper.scrape` (lines 186-244), with the
instrumentation field `dispatched` recording every URL handed to the
detail-page pool. -/

structure MitConfig where
  max_pages : Nat
  max_results : Nat
deriving Repr

structure MitState where
  results : List Record
  num_pages : Nat
  num_results : Nat
  dispatched : List String
  should_stop : Bool
deriving Repr

/-- The `for result in page_results` loop of `mit_scraper.py` lines
222-228: the counter check precedes the append. -/
def mitInnerLoop (cfg : MitConfig) : MitState → List Record → MitState
  | st, [] => st
  | st, r :: rest =>
    if should_stop_scraping cfg.max_results cfg.max_pages st.num_results
        st.num_pages then
      { st with should_stop := true }
    else
      mitInnerLoop cfg
        { st with results := st.results ++ [r],
                  num_results := st.num_results + 1 } rest

/-- One iteration of the MIT `while` loop body: dispatch the page's URLs to
the pool, collect into results, bump the page counter. -/
def mitPageStep (cfg : MitConfig) (fetch : String → Record) (st : MitState)
    (urls : List String) : MitState :=
  let st₁ := { st with dispatched := st.dispatched ++ urls }
  let page_results :=
    (imapPool fetch urls (List.range urls.length)).filterMap id
  let st₂ := mitInnerLoop cfg st₁ page_results
  { st₂ with num_pages := st₂.num_pages + 1 }

/-- The MIT `while` loop over the site's listing pages: the list running
out models the absent next button; `should_stop` breaks first. -/
def mitScrape (cfg : MitConfig) (fetch : String → Record) :
    List (List String) → MitState → MitState
  | [], st => st
  | page :: rest, st =>
    let st' := mitPageStep cfg fetch st page
    if st'.should_stop then st' else mitScrape cfg fetch rest st'

/-- Run state at `scrape` entry. -/
def mitInit : MitState :=
  { results := [], num_pages := 0, num_results := 0, dispatched := [],
    should_stop := false }

/-! ## Loading prior state
`ucla_scraper.py` `load_results` (lines 50-60) and the resume block of
`umich_scraper.py` `scrape` (lines 212-223).  The file system is modelled
by `Option String` (`none` = the file does not exist); the boolean reports
whether the corrupt-file warning was printed. -/

/-- `load_results` of `ucla_scraper.py`: absent file loads as the empty
list, an unparseable file warns and loads as the empty list. -/
def load_results (file : Option String) : Json × Bool :=
  match file with
  | none => (Json.arr [], false)
  | some text =>
    match json_loads text with
    | some j => (j, false)
    | none => (Json.arr [], true)

/-- Is this JSON value a Python dict? -/
def isObj : Json → Bool
  | Json.obj _ => true
  | _ => false

/-- The truthy string `page_url` values of a loaded batch:
`{r.get('page_url') for r in existing_results if r.get('page_url')}`. -/
def seenUrlsOfJson (xs : List Json) : List String :=
  xs.filterMap fun j =>
    match getKey j "page_url" with
    | some (Json.str s) => if s = "" then none else some s
    | _ => none

/-- The resume block of `umich_scraper.py` `scrape`: absent or unparseable
storage yields the empty seen-set (warning in the unparseable case); a
parseable file that is not a list of dicts raises (`Except.error`). -/
def umichLoadSeen (file : Option String) :
    Except String (List String × Bool) :=
  match file with
  | none => Except.ok ([], false)
  | some text =>
    match json_loads text with
    | none => Except.ok ([], true)
    | some (Json.arr xs) =>
      if xs.all isObj then Except.ok (seenUrlsOfJson xs, false)
      else Except.error "TypeError"
    | some _ => Except.error "TypeError"

/-! ## The semaphore-bounded worker pool
`parallel_scraper.py` lines 126-135: `scrape_with_semaphore` wraps each
detail-page call in `async with semaphore` where
`semaphore = asyncio.Semaphore(N)`.  We model the protocol as a transition
system: a task may enter `running` only while fewer than `N` are running
(semaphore acquire), and leaves to `done` (release on exiting the `async
with` block).  Any interleaving is a path in the relation. -/

inductive TaskPhase where
  | waiting
  | running
  | done
deriving DecidableEq, Repr

/-- Number of detail-page calls currently in flight. -/
def countRunning (ts : List TaskPhase) : Nat :=
  ts.countP fun t => t = TaskPhase.running

/-- One scheduler step under a semaphore of size `N`. -/
inductive SemStep (N : Nat) : List TaskPhase → List TaskPhase → Prop where
  | acquire (ts : List TaskPhase) (i : Nat) :
      ts.get? i = some TaskPhase.waiting → countRunning ts < N →
      SemStep N ts (ts.set i TaskPhase.running)
  | release (ts : List TaskPhase) (i : Nat) :
      ts.get? i = some TaskPhase.running →
      SemStep N ts (ts.set i TaskPhase.done)

/-- States reachable from `n` dispatched tasks, none yet started. -/
def SemReachable (N n : Nat) (ts : List TaskPhase) : Prop :=
  Relation.ReflTransGen (SemStep N) (List.replicate n TaskPhase.waiting) ts

/-! ## Helper lemmas -/

theorem getKey_errRecordJson (url k : String) (hk : k ∈ recordKeys) :
    getKey (errRecordJson url) k = some (Json.str "") := by
  fin_cases hk <;> rfl

theorem find?_map_upsert (k : String) (v : Json)
    (kvs : List (String × Json)) :
    (List.find? (fun p => p.1 == k)
        (kvs.map fun p => if p.1 == k then (p.1, v) else p)).map Prod.snd =
      if kvs.any (fun p => p.1 == k) then some v else none := by
  induction kvs with
  | nil => rfl
  | cons p rest ih =>
    by_cases hp : (p.1 == k) = true
    · simp only [List.map_cons, if_pos hp, List.find?]
      simp only [hp, List.any_cons]
      simp
    · have hpf : (p.1 == k) = false := by simpa using hp
      simp only [List.map_cons, hpf, Bool.false_eq_true, if_false, List.find?,
        List.any_cons, Bool.false_or]
      exact ih

theorem getKey_dictInsert (kvs : List (String × Json)) (k : String)
    (v : Json) : getKey (Json.obj (dictInsert kvs k v)) k = some v := by
  unfold getKey dictInsert
  by_cases h : kvs.any (fun p => p.1 == k)
  · simpa [h] using find?_map_upsert k v kvs
  · have hnone : List.find? (fun p => p.1 == k) kvs = none := by
      rw [List.find?_eq_none]
      intro p hp
      exact fun hbeq => h (List.any_eq_true.2 ⟨p, hp, hbeq⟩)
    simp [h, List.find?_append, hnone, List.find?]

/-! ## C6: the extraction-response parser -/

/-- C6: for every response string, a leading fenced block has its first and
last lines removed before `json.loads` is attempted, and whenever the
content handed to `json.loads` fails to parse the result is the canonical
record with all five fields the empty string (the function is total, so it
never raises). -/
theorem c6_parse_llm_response_fence_and_failure (content : String) :
    (pyStartsWith content "```" = true →
      parse_llm_response content =
        (json_loads (stripFence content)).getD emptyRecordJson) ∧
    (json_loads (effectiveContent content) = none →
      parse_llm_response content = emptyRecordJson ∧
        ∀ k ∈ recordKeys,
          getKey (parse_llm_response content) k = some (Json.str "")) := by
  constructor
  · intro h
    simp only [parse_llm_response, effectiveContent, h, if_true]
    cases json_loads (stripFence content) <;> rfl
  · intro h
    have he : parse_llm_response content = emptyRecordJson := by
      simp [parse_llm_response, h]
    refine ⟨he, ?_⟩
    intro k hk
    rw [he]
    fin_cases hk <;> rfl

/-- Witness for C6 at the fenced non-JSON response. -/
theorem c6_witness :
    parse_llm_response "```json\nnot json\n```" =
        (json_loads (stripFence "```json\nnot json\n```")).getD
          emptyRecordJson ∧
      parse_llm_response "```json\nnot json\n```" = emptyRecordJson :=
  ⟨(c6_parse_llm_response_fence_and_failure "```json\nnot json\n```").1
      (by rfl),
    ((c6_parse_llm_response_fence_and_failure "```json\nnot json\n```").2
      (by rfl)).1⟩

/-! ## C7: shape of the extraction client's result -/

/-- C7 counterexample: the plainly-JSON response `"{}"` parses, and the
extraction client returns the parsed empty mapping unchanged — an object
that does NOT contain the five Record keys, refuting the claim that every
response yields the five-field shape. -/
theorem c7_counterexample :
    hasRecordShape (extract_info "\x7b\x7d") = false ∧
      extract_info "\x7b\x7d" = Json.obj [] := by
  exact ⟨rfl, rfl⟩

/-- C7 amended: on a response that fails to parse as JSON (after optional
fence-stripping) the client returns the canonical all-empty record, which
does have the five-field shape; on a response that parses, the client
returns the parsed JSON value unchanged, so the result has the five-field
shape only when the response itself does. -/
theorem c7_extract_info_shape (response : String) :
    (json_loads (effectiveContent (pyStrip response)) = none →
      extract_info response = emptyRecordJson ∧
        hasRecordShape (extract_info response) = true) ∧
    (∀ j, json_loads (effectiveContent (pyStrip response)) = some j →
      extract_info response = j) := by
  constructor
  · intro h
    have he : extract_info response = emptyRecordJson := by
      simp [extract_info, parse_llm_response, h]
    exact ⟨he, by rw [he]; rfl⟩
  · intro j h
    simp [extract_info, parse_llm_response, h]

/-- Witness for C7 at a non-JSON response. -/
theorem c7_witness :
    extract_info "not json" = emptyRecordJson ∧
      hasRecordShape (extract_info "not json") = true :=
  (c7_extract_info_shape "not json").1 (by rfl)

/-! ## C2: totality of the detail-page workers -/

/-- C2 counterexample: the Stanford `process_item` (one of the two
detail-page processing functions the claim covers) returns `None` — not a
record with `sourceURL` populated — when the markdown fetch fails. -/
theorem c2_counterexample :
    process_item (fun _ => Except.error "TimeoutError")
      (fun _ => Except.ok "") "https://techfinder.stanford.edu/t1" = none :=
  rfl

/-- C2 amended: the MIT `process_detail_page` is total and always populates
`page_url` with the input URL; on any fetch or LLM failure it returns the
empty-fields record (so the other fields are empty strings there).  The
Stanford `process_item` also never propagates a failure, but degrades to
`None` instead of a record, and whenever it does return a record the
record's `page_url` is the input URL. -/
theorem c2_detail_worker_totality
    (fetchMd llm : String → Except String String) (url : String) :
    getKey (process_detail_page fetchMd llm url) "page_url" =
        some (Json.str url) ∧
    (((∃ e, fetchMd url = Except.error e) ∨
        (∃ md e, fetchMd url = Except.ok md ∧ llm md = Except.error e)) →
      process_detail_page fetchMd llm url = errRecordJson url) ∧
    (∀ r, process_item fetchMd llm url = some r →
      getKey r "page_url" = some (Json.str url)) ∧
    ((∃ e, fetchMd url = Except.error e) →
      process_item fetchMd llm url = none) := by
  have herr : getKey (errRecordJson url) "page_url" = some (Json.str url) :=
    rfl
  refine ⟨?_, ?_, ?_, ?_⟩
  · cases hf : fetchMd url with
    | error e => simp [process_detail_page, hf, herr]
    | ok md =>
      cases hl : llm md with
      | error e => simp [process_detail_page, hf, hl, herr]
      | ok content =>
        cases hx : extract_info content <;>
          simp [process_detail_page, hf, hl, hx, herr, getKey_dictInsert]
  · rintro (⟨e, hf⟩ | ⟨md, e, hf, hl⟩)
    · simp [process_detail_page, hf]
    · simp [process_detail_page, hf, hl]
  · intro r hr
    cases hf : fetchMd url with
    | error e => simp [process_item, hf] at hr
    | ok md =>
      cases hl : llm md with
      | error e => simp [process_item, hf, hl] at hr
      | ok content =>
        cases hx : extract_info content <;>
          simp [process_item, hf, hl, hx] at hr
        subst hr
        exact getKey_dictInsert _ _ _
  · rintro ⟨e, hf⟩
    simp [process_item, hf]

/-- Witness for C2 at a failing fetch. -/
theorem c2_witness :
    getKey (process_detail_page (fun _ => Except.error "TimeoutError")
        (fun _ => Except.ok "") "https://tlo.mit.edu/t1") "page_url" =
      some (Json.str "https://tlo.mit.edu/t1") ∧
    process_detail_page (fun _ => Except.error "TimeoutError")
        (fun _ => Except.ok "") "https://tlo.mit.edu/t1" =
      errRecordJson "https://tlo.mit.edu/t1" :=
  have h := c2_detail_worker_totality (fun _ => Except.error "TimeoutError")
    (fun _ => Except.ok "") "https://tlo.mit.edu/t1"
  ⟨h.1, h.2.1 (Or.inl ⟨"TimeoutError", rfl⟩)⟩

/-! ## C5: resumption filtering before dispatch -/

/-- C5 counterexample: the MIT scraper collects and dispatches every item
on the listing page without consulting any loaded seen-set — here the
listing's sole item is dispatched even though the durable store (seen-set
`["https://t/1"]`) already contains it. -/
theorem c5_counterexample :
    mitCollectUrls true (fun s => s) ["https://t/1"] = ["https://t/1"] ∧
      "https://t/1" ∈ mitCollectUrls true (fun s => s) ["https://t/1"] ∧
      "https://t/1" ∈ ["https://t/1"] := by
  refine ⟨rfl, ?_, List.mem_singleton.2 rfl⟩
  show "https://t/1" ∈ (["https://t/1"] : List String)
  exact List.mem_singleton.2 rfl

/-- C5 amended: the Michigan scraper's URL-collection loop never emits a
URL that is in the loaded seen-set, so no detail-page call is dispatched
for it; the MIT scraper performs no such filtering. -/
theorem c5_resume_skips_seen (relative_links : Bool)
    (resolve : String → String) (items : List String) (slots : Nat)
    (processed : List String) (u : String) (hu : u ∈ processed) :
    u ∉ umichCollectUrls relative_links resolve items slots processed := by
  unfold umichCollectUrls
  have key : ∀ (l acc : List String), u ∉ acc →
      u ∉ l.foldl (fun acc item =>
        let v := if relative_links then resolve item else item
        if processed.contains v then acc else acc ++ [v]) acc := by
    intro l
    induction l with
    | nil => intro acc h; simpa using h
    | cons it rest ih =>
      intro acc hacc
      simp only [List.foldl_cons]
      apply ih
      by_cases hc : (if relative_links then resolve it else it) ∈ processed
      · simpa [hc] using hacc
      · have hcf :
            processed.contains (if relative_links then resolve it else it) =
              false :=
          Bool.eq_false_iff.2 fun h => hc (List.elem_iff.1 h)
        have hne : (if relative_links then resolve it else it) ≠ u :=
          fun he => hc (he ▸ hu)
        simp only [hcf, Bool.false_eq_true, if_false, List.mem_append,
          List.mem_singleton]
        rintro (h | h)
        · exact hacc h
        · exact hne h.symm
  exact key _ [] (by simp)

/-- Witness for C5 at a concrete seen URL. -/
theorem c5_witness :
    "https://u/1" ∉
      umichCollectUrls true (fun s => s) ["https://u/1", "https://u/2"] 2
        ["https://u/1"] :=
  c5_resume_skips_seen true (fun s => s) ["https://u/1", "https://u/2"] 2
    ["https://u/1"] "https://u/1" (List.mem_singleton.2 rfl)

/-! ## C9: loading prior state fails open -/

/-- C9: for an absent store file, and for a present but unparseable one,
both loaders yield empty prior state (`ucla_scraper.load_results` the empty
record list, the Michigan resume block the empty seen-set), warn exactly in
the corrupt case, and return normally instead of aborting. -/
theorem c9_load_fails_open :
    load_results none = (Json.arr [], false) ∧
    (∀ text, json_loads text = none →
      load_results (some text) = (Json.arr [], true)) ∧
    umichLoadSeen none = Except.ok ([], false) ∧
    (∀ text, json_loads text = none →
      umichLoadSeen (some text) = Except.ok ([], true)) := by
  refine ⟨rfl, ?_, rfl, ?_⟩
  · intro text h
    simp [load_results, h]
  · intro text h
    simp [umichLoadSeen, h]

/-- Witness for C9 at a concrete corrupt file body. -/
theorem c9_witness :
    load_results (some "\x7b corrupt") = (Json.arr [], true) ∧
      umichLoadSeen (some "\x7b corrupt") = Except.ok ([], true) :=
  ⟨c9_load_fails_open.2.1 "\x7b corrupt" (by rfl),
    c9_load_fails_open.2.2.2 "\x7b corrupt" (by rfl)⟩

/-! ## C10: the semaphore bounds in-flight detail calls -/

theorem countRunning_set_run (ts : List TaskPhase) (i : Nat)
    (h : ts.get? i = some TaskPhase.waiting) :
    countRunning (ts.set i TaskPhase.running) = countRunning ts + 1 := by
  induction ts generalizing i with
  | nil => simp at h
  | cons t rest ih =>
    cases i with
    | zero =>
      simp only [List.get?] at h
      injection h with h
      simp [countRunning, List.countP_cons, h]
    | succ j =>
      simp only [List.get?] at h
      simp only [List.set, countRunning, List.countP_cons]
      have := ih j h
      simp only [countRunning] at this
      omega

theorem countRunning_set_done (ts : List TaskPhase) (i : Nat)
    (h : ts.get? i = some TaskPhase.running) :
    countRunning (ts.set i TaskPhase.done) + 1 = countRunning ts := by
  induction ts generalizing i with
  | nil => simp at h
  | cons t rest ih =>
    cases i with
    | zero =>
      simp only [List.get?] at h
      injection h with h
      simp [countRunning, List.countP_cons, h]
    | succ j =>
      simp only [List.get?] at h
      simp only [List.set, countRunning, List.countP_cons]
      have := ih j h
      simp only [countRunning] at this
      omega

/-- C10: in every state reachable from `n` dispatched, not-yet-started
detail-page tasks under a semaphore of size `N`, at most `N` tasks are in
flight simultaneously. -/
theorem c10_semaphore_bound (N n : Nat) (ts : List TaskPhase)
    (h : SemReachable N n ts) : countRunning ts ≤ N := by
  induction h with
  | refl =>
    have h0 : countRunning (List.replicate n TaskPhase.waiting) = 0 := by
      refine List.countP_eq_zero.2 ?_
      intro a ha
      rw [List.eq_of_mem_replicate ha]
      decide
    omega
  | tail _ hstep ih =>
    cases hstep with
    | acquire i hw hlt =>
      rw [countRunning_set_run _ i hw]
      omega
    | release i hr =>
      have := countRunning_set_done _ i hr
      omega

/-- Witness for C10: the initial state of a three-permit pool with two
dispatched tasks. -/
theorem c10_witness :
    countRunning (List.replicate 2 TaskPhase.waiting) ≤ 3 :=
  c10_semaphore_bound 3 2 _ Relation.ReflTransGen.refl

/-! ## Lemmas about `lastIdxU` and the store merge -/

theorem set_get?_self {α : Type} (l : List α) (i : Nat) (a : α)
    (h : l.get? i = some a) : l.set i a = l := by
  induction l generalizing i with
  | nil => rfl
  | cons b l ih =>
    cases i with
    | zero =>
      simp only [List.get?] at h
      injection h with h
      simp [List.set, h]
    | succ j =>
      simp only [List.get?] at h
      simp [List.set, ih j h]

theorem lastIdxU_lt (U : List String) (u : String) (i : Nat)
    (h : lastIdxU U u = some i) : i < U.length := by
  induction U generalizing i with
  | nil => simp [lastIdxU] at h
  | cons v vs ih =>
    cases hm : lastIdxU vs u with
    | some j =>
      rw [lastIdxU, hm] at h
      injection h with h
      have := ih j hm
      simp only [List.length_cons]
      omega
    | none =>
      rw [lastIdxU, hm] at h
      by_cases hv : v = u
      · rw [if_pos hv] at h
        injection h with h
        simp only [List.length_cons]
        omega
      · rw [if_neg hv] at h
        exact absurd h (by simp)

theorem lastIdxU_get (U : List String) (u : String) (i : Nat)
    (h : lastIdxU U u = some i) : U.get? i = some u := by
  induction U generalizing i with
  | nil => simp [lastIdxU] at h
  | cons v vs ih =>
    cases hm : lastIdxU vs u with
    | some j =>
      rw [lastIdxU, hm] at h
      injection h with h
      subst h
      simpa [List.get?] using ih j hm
    | none =>
      rw [lastIdxU, hm] at h
      by_cases hv : v = u
      · rw [if_pos hv] at h
        injection h with h
        subst h
        simp [List.get?, hv]
      · rw [if_neg hv] at h
        exact absurd h (by simp)

theorem lastIdxU_eq_none_iff (U : List String) (u : String) :
    lastIdxU U u = none ↔ u ∉ U := by
  induction U with
  | nil => simp [lastIdxU]
  | cons v vs ih =>
    rw [lastIdxU]
    cases hm : lastIdxU vs u with
    | some j =>
      have hin : u ∈ vs := by
        by_contra hvs
        rw [ih.2 hvs] at hm
        exact absurd hm (by simp)
      simp [hin]
    | none =>
      have hvs : u ∉ vs := ih.1 hm
      by_cases hv : v = u
      · simp [hv]
      · have hne : ¬u = v := fun h => hv h.symm
        simp [hvs, hne, hv]

theorem lastIdxU_append_single (U : List String) (v u : String) :
    lastIdxU (U ++ [v]) u =
      if u = v then some U.length else lastIdxU U u := by
  induction U with
  | nil =>
    by_cases h : u = v
    · simp [lastIdxU, h]
    · have hne : ¬v = u := fun hh => h hh.symm
      simp [lastIdxU, h, hne]
  | cons w U ih =>
    by_cases h : u = v
    · rw [List.cons_append, lastIdxU, ih, if_pos h, if_pos h]
      simp
    · rw [List.cons_append, lastIdxU, ih, if_neg h, if_neg h, lastIdxU]

theorem urlsOf_set (es : List Record) (i : Nat) (r : Record) :
    urlsOf (es.set i r) = (urlsOf es).set i r.page_url := by
  simp [urlsOf, List.map_set]

theorem urlsOf_append_single (es : List Record) (r : Record) :
    urlsOf (es ++ [r]) = urlsOf es ++ [r.page_url] := by
  simp [urlsOf]

theorem urlsOf_length (es : List Record) : (urlsOf es).length = es.length :=
  List.length_map es _

/-- The incrementally-maintained `seen_urls` dict of `_save_results` always
equals the dict recomputed from the current store, so the source's fold is
the fold of the recomputed-upsert `merge1`. -/
theorem mergeStep_eq (es : List Record) (r : Record) :
    mergeStep (es, lastIdxU (urlsOf es)) r =
      (merge1 es r, lastIdxU (urlsOf (merge1 es r))) := by
  cases hm : lastIdxU (urlsOf es) r.page_url with
  | some i =>
    have hget : (urlsOf es).get? i = some r.page_url :=
      lastIdxU_get _ _ _ hm
    have hurls : urlsOf (es.set i r) = urlsOf es := by
      rw [urlsOf_set, set_get?_self _ _ _ hget]
    simp [mergeStep, merge1, hm, hurls]
  | none =>
    refine Prod.ext ?_ ?_
    · simp [mergeStep, merge1, hm]
    · simp only [mergeStep, merge1, hm]
      funext u
      rw [urlsOf_append_single, lastIdxU_append_single, urlsOf_length]

theorem foldl_mergeStep_eq (R : List Record) :
    ∀ es : List Record,
      R.foldl mergeStep (es, lastIdxU (urlsOf es)) =
        (R.foldl merge1 es, lastIdxU (urlsOf (R.foldl merge1 es))) := by
  induction R with
  | nil => intro es; rfl
  | cons r R ih =>
    intro es
    rw [List.foldl_cons, List.foldl_cons, mergeStep_eq]
    exact ih (merge1 es r)

theorem save_results_merge_eq_foldl (existing newResults : List Record) :
    save_results_merge existing newResults =
      newResults.foldl merge1 existing := by
  rw [save_results_merge, foldl_mergeStep_eq]

theorem mapReplace_of_not_mem (es : List Record) (u : String) (x : Record)
    (h : u ∉ urlsOf es) :
    es.map (fun e => if e.page_url = u then x else e) = es := by
  induction es with
  | nil => rfl
  | cons e es ih =>
    simp only [urlsOf, List.map_cons, List.mem_cons] at h
    push_neg at h
    simp only [List.map_cons,
      if_neg (show ¬e.page_url = u from fun hc => h.1 hc.symm)]
    rw [ih (by simp [urlsOf, h.2])]

theorem urlsOf_mapReplace (es : List Record) (r : Record) :
    urlsOf (es.map fun e => if e.page_url = r.page_url then r else e) =
      urlsOf es := by
  induction es with
  | nil => rfl
  | cons e es ih =>
    by_cases h : e.page_url = r.page_url
    · simp only [urlsOf, List.map_cons, if_pos h] at ih ⊢
      rw [ih, h]
    · simp only [urlsOf, List.map_cons, if_neg h] at ih ⊢
      rw [ih]

theorem merge1_replace_of_nodup (es : List Record) (r : Record)
    (hnd : (urlsOf es).Nodup) (hmem : r.page_url ∈ urlsOf es) :
    merge1 es r = es.map fun e => if e.page_url = r.page_url then r else e := by
  induction es with
  | nil => simp [urlsOf] at hmem
  | cons e es ih =>
    simp only [urlsOf, List.map_cons, List.nodup_cons] at hnd
    rcases hnd with ⟨hnotin, hnd'⟩
    simp only [urlsOf, List.map_cons, List.mem_cons] at hmem
    by_cases hm : r.page_url ∈ urlsOf es
    · have hne : e.page_url ≠ r.page_url := by
        intro hc
        rw [← hc] at hm
        exact hnotin (by simpa [urlsOf] using hm)
      obtain ⟨i, hi⟩ : ∃ i, lastIdxU (urlsOf es) r.page_url = some i := by
        cases hx : lastIdxU (urlsOf es) r.page_url with
        | some i => exact ⟨i, rfl⟩
        | none => exact absurd ((lastIdxU_eq_none_iff _ _).1 hx) (by simp [hm])
      have hmerge := ih hnd' hm
      have hcons : lastIdxU (urlsOf (e :: es)) r.page_url = some (i + 1) := by
        show lastIdxU (e.page_url :: urlsOf es) r.page_url = some (i + 1)
        rw [lastIdxU, hi]
      have hL : merge1 (e :: es) r = e :: es.set i r := by
        unfold merge1
        rw [hcons]
        rfl
      have hR : merge1 es r = es.set i r := by
        unfold merge1
        rw [hi]
      rw [hL, ← hR, hmerge, List.map_cons, if_neg hne]
    · have heq : e.page_url = r.page_url := by
        rcases hmem with h | h
        · exact h.symm
        · exact absurd (by simpa [urlsOf] using h) hm
      have hnone : lastIdxU (urlsOf es) r.page_url = none :=
        (lastIdxU_eq_none_iff _ _).2 (by simpa [urlsOf] using hm)
      have hcons : lastIdxU (urlsOf (e :: es)) r.page_url = some 0 := by
        show lastIdxU (e.page_url :: urlsOf es) r.page_url = some 0
        rw [lastIdxU, hnone, if_pos heq]
      have hL : merge1 (e :: es) r = r :: es := by
        unfold merge1
        rw [hcons]
        rfl
      rw [hL, List.map_cons, if_pos heq,
        mapReplace_of_not_mem es r.page_url r hm]

/-! ## C3: upsert-by-URL preserves uniqueness -/

/-- C3: on a store without duplicate `page_url`s, merging one new record
whose URL is already present replaces the old record in place (every record
at that URL becomes the new record, all others are untouched), and the
resulting store again has no two records sharing a `page_url`. -/
theorem c3_upsert_by_url (es : List Record) (r old : Record)
    (hnd : (urlsOf es).Nodup) (hold : old ∈ es)
    (hu : old.page_url = r.page_url) :
    save_results_merge es [r] =
        (es.map fun e => if e.page_url = r.page_url then r else e) ∧
      (urlsOf (save_results_merge es [r])).Nodup := by
  have hmem : r.page_url ∈ urlsOf es := by
    rw [← hu]
    exact List.mem_map_of_mem _ hold
  have h1 : save_results_merge es [r] = merge1 es r := by
    rw [save_results_merge_eq_foldl]
    rfl
  have h2 := merge1_replace_of_nodup es r hnd hmem
  refine ⟨h1.trans h2, ?_⟩
  rw [h1, h2, urlsOf_mapReplace]
  exact hnd

/-- Witness for C3: replacing the record for `u1` in a two-record store. -/
theorem c3_witness :
    save_results_merge
          [⟨"A", "1", "", "", "", "u1"⟩, ⟨"B", "2", "", "", "", "u2"⟩]
          [⟨"A2", "9", "", "", "", "u1"⟩] =
        [⟨"A2", "9", "", "", "", "u1"⟩, ⟨"B", "2", "", "", "", "u2"⟩] ∧
      (urlsOf (save_results_merge
          [⟨"A", "1", "", "", "", "u1"⟩, ⟨"B", "2", "", "", "", "u2"⟩]
          [⟨"A2", "9", "", "", "", "u1"⟩])).Nodup := by
  have h := c3_upsert_by_url
    [⟨"A", "1", "", "", "", "u1"⟩, ⟨"B", "2", "", "", "", "u2"⟩]
    ⟨"A2", "9", "", "", "", "u1"⟩ ⟨"A", "1", "", "", "", "u1"⟩
    (by decide) (by decide) rfl
  exact ⟨h.1.trans (by decide), h.2⟩

/-! ## Lemmas towards idempotence of the merge -/

theorem lastRec_isSome (S : List Record) (u : String) (s : Record)
    (hs : s ∈ S) (hu : s.page_url = u) : ∃ x, lastRec S u = some x := by
  induction S with
  | nil => exact absurd hs (List.not_mem_nil s)
  | cons r S' ih =>
    rw [lastRec]
    cases hm : lastRec S' u with
    | some x => exact ⟨x, rfl⟩
    | none =>
      rcases List.mem_cons.1 hs with rfl | hs'
      · exact ⟨s, by rw [if_pos hu]⟩
      · obtain ⟨x, hx⟩ := ih hs'
        rw [hx] at hm
        exact absurd hm (by simp)

theorem lastRec_mem (S : List Record) (u : String) (x : Record)
    (h : lastRec S u = some x) : x ∈ S ∧ x.page_url = u := by
  induction S with
  | nil => simp [lastRec] at h
  | cons r S' ih =>
    rw [lastRec] at h
    cases hm : lastRec S' u with
    | some y =>
      rw [hm] at h
      injection h with h
      subst h
      obtain ⟨h1, h2⟩ := ih hm
      exact ⟨List.mem_cons_of_mem _ h1, h2⟩
    | none =>
      rw [hm] at h
      by_cases hr : r.page_url = u
      · rw [if_pos hr] at h
        injection h with h
        subst h
        exact ⟨List.mem_cons_self _ _, hr⟩
      · rw [if_neg hr] at h
        exact absurd h (by simp)

theorem lastRec_eq_none (S : List Record) (u : String)
    (h : ∀ s ∈ S, s.page_url ≠ u) : lastRec S u = none := by
  induction S with
  | nil => rfl
  | cons r S' ih =>
    rw [lastRec, ih fun s hs => h s (List.mem_cons_of_mem _ hs),
      if_neg (h r (List.mem_cons_self _ _))]

/-- A URL with no occurrence in the remaining batch keeps both its
canonical slot and that slot's contents across the fold. -/
theorem foldl_merge1_preserve (S : List Record) (u : String) :
    ∀ (es : List Record) (i : Nat) (v : Record),
      (∀ s ∈ S, s.page_url ≠ u) →
      lastIdxU (urlsOf es) u = some i → es.get? i = some v →
      lastIdxU (urlsOf (S.foldl merge1 es)) u = some i ∧
        (S.foldl merge1 es).get? i = some v := by
  induction S with
  | nil => exact fun es i v _ h1 h2 => ⟨h1, h2⟩
  | cons s S' ih =>
    intro es i v hS h1 h2
    have hs : s.page_url ≠ u := hS s (List.mem_cons_self _ _)
    have hstep : lastIdxU (urlsOf (merge1 es s)) u = some i ∧
        (merge1 es s).get? i = some v := by
      cases hm : lastIdxU (urlsOf es) s.page_url with
      | some j =>
        have hj : (urlsOf es).get? j = some s.page_url :=
          lastIdxU_get _ _ _ hm
        have hiu : (urlsOf es).get? i = some u := lastIdxU_get _ _ _ h1
        have hij : j ≠ i := by
          intro hc
          rw [hc, hiu] at hj
          injection hj with hj
          exact hs hj.symm
        have hmm : merge1 es s = es.set j s := by
          unfold merge1
          rw [hm]
        have hurls : urlsOf (es.set j s) = urlsOf es := by
          rw [urlsOf_set, set_get?_self _ _ _ hj]
        rw [hmm, hurls]
        exact ⟨h1, by rw [List.get?_set_ne _ _ hij]; exact h2⟩
      | none =>
        have hmm : merge1 es s = es ++ [s] := by
          unfold merge1
          rw [hm]
        have hlen : i < es.length := by
          have := lastIdxU_lt _ _ _ h1
          rwa [urlsOf_length] at this
        rw [hmm, urlsOf_append_single, lastIdxU_append_single,
          if_neg fun hc => hs hc.symm]
        exact ⟨h1, by rw [List.get?_append hlen]; exact h2⟩
    rw [List.foldl_cons]
    exact ih (merge1 es s) i v
      (fun t ht => hS t (List.mem_cons_of_mem _ ht)) hstep.1 hstep.2

/-- After one pass of the merge, the canonical slot of every URL of the
batch holds the last batch record with that URL. -/
theorem foldl_merge1_val (R : List Record) :
    ∀ (es : List Record) (u : String), (∃ s ∈ R, s.page_url = u) →
      ∃ i, lastIdxU (urlsOf (R.foldl merge1 es)) u = some i ∧
        (R.foldl merge1 es).get? i = lastRec R u := by
  induction R with
  | nil => rintro es u ⟨s, hs, _⟩; exact absurd hs (List.not_mem_nil s)
  | cons r R' ih =>
    intro es u hex
    rw [List.foldl_cons]
    by_cases hR' : ∃ s ∈ R', s.page_url = u
    · obtain ⟨i, h1, h2⟩ := ih (merge1 es r) u hR'
      obtain ⟨s', hs', hu'⟩ := hR'
      obtain ⟨x, hx⟩ := lastRec_isSome R' u s' hs' hu'
      refine ⟨i, h1, ?_⟩
      rw [h2, lastRec, hx]
    · have hru : r.page_url = u := by
        rcases hex with ⟨s, hs, hsu⟩
        rcases List.mem_cons.1 hs with rfl | hmem
        · exact hsu
        · exact absurd ⟨s, hmem, hsu⟩ hR'
      have hS' : ∀ t ∈ R', t.page_url ≠ u := fun t ht htu => hR' ⟨t, ht, htu⟩
      have hnone : lastRec R' u = none := lastRec_eq_none R' u hS'
      have hlast : lastRec (r :: R') u = some r := by
        rw [lastRec, hnone, if_pos hru]
      rw [hlast]
      cases hm : lastIdxU (urlsOf es) r.page_url with
      | some j =>
        have hj : (urlsOf es).get? j = some r.page_url :=
          lastIdxU_get _ _ _ hm
        have hmm : merge1 es r = es.set j r := by
          unfold merge1
          rw [hm]
        have hurls : urlsOf (es.set j r) = urlsOf es := by
          rw [urlsOf_set, set_get?_self _ _ _ hj]
        have hjlt : j < es.length := by
          have := lastIdxU_lt _ _ _ hm
          rwa [urlsOf_length] at this
        have h1 : lastIdxU (urlsOf (merge1 es r)) u = some j := by
          rw [hmm, hurls, ← hru]
          exact hm
        have h2 : (merge1 es r).get? j = some r := by
          rw [hmm]
          exact List.get?_set_eq_of_lt _ hjlt
        obtain ⟨ha, hb⟩ := foldl_merge1_preserve R' u (merge1 es r) j r
          hS' h1 h2
        exact ⟨j, ha, hb⟩
      | none =>
        have hmm : merge1 es r = es ++ [r] := by
          unfold merge1
          rw [hm]
        have h1 : lastIdxU (urlsOf (merge1 es r)) u = some es.length := by
          rw [hmm, urlsOf_append_single, lastIdxU_append_single,
            if_pos hru.symm, urlsOf_length]
        have h2 : (merge1 es r).get? es.length = some r := by
          rw [hmm]
          exact List.get?_concat_length es r
        obtain ⟨ha, hb⟩ := foldl_merge1_preserve R' u (merge1 es r)
          es.length r hS' h1 h2
        exact ⟨es.length, ha, hb⟩

/-- Replaying a batch onto a store that already agrees with the target
everywhere except (possibly) at slots canonically owned by the batch's
URLs — where the target holds the batch's last write — reproduces the
target exactly. -/
theorem foldl_merge1_replay (S : List Record) :
    ∀ (tgt X : List Record),
      urlsOf X = urlsOf tgt →
      (∀ s ∈ S, ∃ i, lastIdxU (urlsOf tgt) s.page_url = some i ∧
        tgt.get? i = lastRec S s.page_url) →
      (∀ i, X.get? i ≠ tgt.get? i →
        ∃ s ∈ S, lastIdxU (urlsOf tgt) s.page_url = some i) →
      S.foldl merge1 X = tgt := by
  induction S with
  | nil =>
    intro tgt X hurls _ hdiff
    simp only [List.foldl_nil]
    refine List.ext_get? fun i => ?_
    by_contra h
    rcases hdiff i h with ⟨s, hs, _⟩
    exact List.not_mem_nil s hs
  | cons s S' ih =>
    intro tgt X hurls hval hdiff
    obtain ⟨i₀, hidx, hv⟩ := hval s (List.mem_cons_self _ _)
    have hXidx : lastIdxU (urlsOf X) s.page_url = some i₀ := by
      rw [hurls]
      exact hidx
    have hm1 : merge1 X s = X.set i₀ s := by
      unfold merge1
      rw [hXidx]
    have hget : (urlsOf tgt).get? i₀ = some s.page_url :=
      lastIdxU_get _ _ _ hidx
    have hlen : i₀ < X.length := by
      have h1 := lastIdxU_lt _ _ _ hXidx
      rwa [urlsOf_length] at h1
    have hurls' : urlsOf (X.set i₀ s) = urlsOf tgt := by
      rw [urlsOf_set, hurls, set_get?_self _ _ _ hget]
    rw [List.foldl_cons, hm1]
    refine ih tgt (X.set i₀ s) hurls' ?_ ?_
    · intro t ht
      obtain ⟨i, h1, h2⟩ := hval t (List.mem_cons_of_mem _ ht)
      obtain ⟨x, hx⟩ := lastRec_isSome S' t.page_url t ht rfl
      refine ⟨i, h1, ?_⟩
      rw [h2, lastRec, hx]
    · intro i hne
      by_cases hi : i = i₀
      · subst hi
        have hXi : (X.set i s).get? i = some s :=
          List.get?_set_eq_of_lt _ hlen
        rw [hXi] at hne
        cases hx : lastRec S' s.page_url with
        | none =>
          exfalso
          apply hne
          rw [hv, lastRec, hx, if_pos rfl]
        | some x =>
          obtain ⟨hxmem, hxurl⟩ := lastRec_mem S' s.page_url x hx
          exact ⟨x, hxmem, by rw [hxurl]; exact hidx⟩
      · have hXi : (X.set i₀ s).get? i = X.get? i :=
          List.get?_set_ne _ _ fun hc => hi hc.symm
        rw [hXi] at hne
        rcases hdiff i hne with ⟨t, ht, hti⟩
        rcases List.mem_cons.1 ht with rfl | htS'
        · exfalso
          apply hi
          rw [hti] at hidx
          injection hidx
        · exact ⟨t, htS', hti⟩

/-! ## C4: idempotence of the merge -/

/-- C4: for every store state and every batch `R` of new records, applying
`_save_results`'s merge twice with the same `R` yields exactly the store
obtained by applying it once — in particular the second application
introduces no duplicate URLs and no duplicate records. -/
theorem c4_merge_idempotent (es R : List Record) :
    save_results_merge (save_results_merge es R) R =
      save_results_merge es R := by
  simp only [save_results_merge_eq_foldl]
  refine foldl_merge1_replay R (R.foldl merge1 es) (R.foldl merge1 es)
    rfl ?_ ?_
  · intro s hs
    exact foldl_merge1_val R es s.page_url ⟨s, hs, rfl⟩
  · intro i h
    exact absurd rfl h

/-! ## The pool delivers results in discovery order -/

theorem fillSlots_get? (vals : Nat → Record) (order : List Nat) :
    ∀ (slots : List (Option Record)) (j : Nat),
      (fillSlots vals slots order).get? j =
        if j ∈ order ∧ j < slots.length then some (some (vals j))
        else slots.get? j := by
  induction order with
  | nil =>
    intro slots j
    simp [fillSlots]
  | cons i rest ih =>
    intro slots j
    rw [fillSlots, List.foldl_cons]
    have step := ih (slots.set i (some (vals i))) j
    rw [fillSlots] at step
    rw [step, List.length_set]
    by_cases hjr : j ∈ rest
    · by_cases hlt : j < slots.length
      · simp [hjr, hlt]
      · have hge : slots.length ≤ j := Nat.not_lt.1 hlt
        rw [if_neg fun hc => hlt hc.2, if_neg fun hc => hlt hc.2,
          List.get?_len_le (by rw [List.length_set]; exact hge),
          List.get?_len_le hge]
    · by_cases hji : j = i
      · subst hji
        by_cases hlt : j < slots.length
        · rw [if_neg (by simp [hjr]), if_pos ⟨List.mem_cons_self _ _, hlt⟩]
          exact List.get?_set_eq_of_lt _ hlt
        · rw [if_neg (by simp [hjr]), if_neg fun hc => hlt hc.2,
            List.set_eq_of_length_le (Nat.not_lt.1 hlt)]
      · rw [if_neg (by simp [hjr]),
          if_neg (by simp [List.mem_cons, hjr, hji])]
        exact List.get?_set_ne _ _ fun h => hji h.symm

/-- Under any complete completion schedule, the pool's slots read back as
the fetched records in URL-discovery order — `pool.imap` order
independence. -/
theorem imapPool_complete (f : String → Record) (urls : List String)
    (order : List Nat) (h : completeSchedule urls.length order) :
    imapPool f urls order = urls.map fun u => some (f u) := by
  refine List.ext_get? fun j => ?_
  rw [imapPool, fillSlots_get?, List.length_replicate, List.get?_map]
  by_cases hj : j < urls.length
  · rw [if_pos ⟨h j hj, hj⟩]
    cases hu : urls.get? j with
    | none => exact absurd hu (by simp [List.get?_eq_none, Nat.not_le.2 hj])
    | some a =>
      have : urls.getD j "" = a := by
        show (urls.get? j).getD "" = a
        rw [hu]
        rfl
      rw [this]
      rfl
  · rw [if_neg (by simp [hj]), List.get?_len_le (by simpa using Nat.not_lt.1 hj),
      List.get?_len_le (by rwa [Nat.not_lt] at hj)]
    rfl

/-- The collected page results of the pool under a complete schedule. -/
theorem imapPool_filterMap (f : String → Record) (urls : List String)
    (order : List Nat) (h : completeSchedule urls.length order) :
    (imapPool f urls order).filterMap id = urls.map f := by
  rw [imapPool_complete f urls order h, List.filterMap_map]
  show List.filterMap (some ∘ f) urls = _
  rw [List.filterMap_eq_map]

/-! ## C1: stop ordering under concurrency -/

/-- C1 counterexample: a listing page resolving, in discovery order, to
records `A = S20`, `B = S10`, `C = S5` where `B` is the first record
satisfying the Stanford stop condition (`S`-number ≤ 17), run under the
completion schedule `[2, 0, 1]`.  The Stanford parallel scraper's persisted
set for the page is `[A]` — it does NOT include the triggering record `B`,
because its collection loop breaks before appending. -/
theorem c1_counterexample :
    stanfordPage stanfordStop
        (fun u =>
          if u = "uA" then ⟨"A", "S20", "", "", "", "uA"⟩
          else if u = "uB" then ⟨"B", "S10", "", "", "", "uB"⟩
          else ⟨"C", "S5", "", "", "", "uC"⟩)
        ["uA", "uB", "uC"] [2, 0, 1] [] =
      ([⟨"A", "S20", "", "", "", "uA"⟩], true) ∧
    (⟨"B", "S10", "", "", "", "uB"⟩ : Record) ∉
      (stanfordPage stanfordStop
        (fun u =>
          if u = "uA" then ⟨"A", "S20", "", "", "", "uA"⟩
          else if u = "uB" then ⟨"B", "S10", "", "", "", "uB"⟩
          else ⟨"C", "S5", "", "", "", "uC"⟩)
        ["uA", "uB", "uC"] [2, 0, 1] []).1 := by
  refine ⟨by decide, ?_⟩
  decide

/-- C1 amended: with items resolving in order to `[A, B, C]`, `A` not
satisfying and `B` satisfying the stop condition, and any complete
completion schedule, the Stanford parallel scraper persists exactly `[A]`
for the page (the triggering record `B` is excluded), while the Michigan
scraper — whose loop appends before checking, here with `max_results = 2`
so that the limit fires at `B` — persists exactly `[A, B]`.  In both, the
outcome is independent of the completion order. -/
theorem c1_stop_ordering (stop : Record → Bool) (A B C : Record)
    (uA uB uC : String) (fetch : String → Record) (order : List Nat)
    (hA : fetch uA = A) (hB : fetch uB = B) (hC : fetch uC = C)
    (horder : completeSchedule 3 order)
    (hsA : stop A = false) (hsB : stop B = true) :
    stanfordPage stop fetch [uA, uB, uC] order [] = ([A], true) ∧
    umichPage 2 0 0 fetch [uA, uB, uC] order [] 0 = ([A, B], 2, true) := by
  have hpool : (imapPool fetch [uA, uB, uC] order).filterMap id =
      [A, B, C] := by
    rw [imapPool_filterMap fetch [uA, uB, uC] order horder]
    simp [hA, hB, hC]
  constructor
  · rw [stanfordPage, hpool]
    rw [stanfordCollect, if_neg (by rw [hsA]; exact Bool.false_ne_true),
      stanfordCollect, if_pos hsB]
    simp
  · rw [umichPage, hpool]
    rw [umichCollect]
    rw [if_neg (by simp [should_stop_scraping])]
    rw [umichCollect]
    rw [if_pos (by simp [should_stop_scraping])]
    simp

/-- Witness for C1's amended statement at concrete records and the
completion schedule `[1, 2, 0]`. -/
theorem c1_witness :
    stanfordPage stanfordStop
        (fun u =>
          if u = "uA" then ⟨"A", "S20", "", "", "", "uA"⟩
          else if u = "uB" then ⟨"B", "S10", "", "", "", "uB"⟩
          else ⟨"C", "S5", "", "", "", "uC"⟩)
        ["uA", "uB", "uC"] [1, 2, 0] [] =
      ([⟨"A", "S20", "", "", "", "uA"⟩], true) ∧
    umichPage 2 0 0
        (fun u =>
          if u = "uA" then ⟨"A", "S20", "", "", "", "uA"⟩
          else if u = "uB" then ⟨"B", "S10", "", "", "", "uB"⟩
          else ⟨"C", "S5", "", "", "", "uC"⟩)
        ["uA", "uB", "uC"] [1, 2, 0] [] 0 =
      ([⟨"A", "S20", "", "", "", "uA"⟩, ⟨"B", "S10", "", "", "", "uB"⟩],
        2, true) :=
  c1_stop_ordering stanfordStop
    ⟨"A", "S20", "", "", "", "uA"⟩ ⟨"B", "S10", "", "", "", "uB"⟩
    ⟨"C", "S5", "", "", "", "uC"⟩ "uA" "uB" "uC"
    (fun u =>
      if u = "uA" then ⟨"A", "S20", "", "", "", "uA"⟩
      else if u = "uB" then ⟨"B", "S10", "", "", "", "uB"⟩
      else ⟨"C", "S5", "", "", "", "uC"⟩)
    [1, 2, 0] (by decide) (by decide) (by decide)
    (by intro i hi; interval_cases i <;> decide) (by decide) (by decide)

/-! ## C8: the page limit -/

theorem mitInnerLoop_no_stop (cfg : MitConfig) (hmr : cfg.max_results = 0)
    (rs : List Record) :
    ∀ st : MitState, st.num_pages < cfg.max_pages →
      mitInnerLoop cfg st rs =
        { st with results := st.results ++ rs,
                  num_results := st.num_results + rs.length } := by
  induction rs with
  | nil =>
    intro st _
    rw [mitInnerLoop]
    cases st
    simp
  | cons r rest ih =>
    intro st h
    rw [mitInnerLoop,
      if_neg (by simp [should_stop_scraping, hmr]; omega)]
    rw [ih _ (by simpa using h)]
    cases st
    simp only [MitState.mk.injEq, List.append_assoc, List.singleton_append,
      List.length_cons, and_true, true_and]
    omega

theorem mitInnerLoop_stops (cfg : MitConfig) (hmr : cfg.max_results = 0)
    (hP : 0 < cfg.max_pages) (r : Record) (rest : List Record) :
    ∀ st : MitState, cfg.max_pages ≤ st.num_pages →
      mitInnerLoop cfg st (r :: rest) = { st with should_stop := true } := by
  intro st h
  rw [mitInnerLoop,
    if_pos (by simp [should_stop_scraping, hmr]; omega)]

/-- The collected page results are the fetched records in listing order. -/
theorem mitPageStep_results (fetch : String → Record) (urls : List String) :
    (imapPool fetch urls (List.range urls.length)).filterMap id =
      urls.map fetch :=
  imapPool_filterMap fetch urls (List.range urls.length)
    fun _ hi => List.mem_range.2 hi

/-- Invariant of the MIT listing loop: with `max_results` unlimited,
results come exactly from the first `max_pages − num_pages` remaining
pages, while dispatch covers one page more (the limit check fires only
inside the NEXT page's result loop). -/
theorem mitScrape_spec (cfg : MitConfig) (fetch : String → Record)
    (hmr : cfg.max_results = 0) (hP : 0 < cfg.max_pages) :
    ∀ (pages : List (List String)) (st : MitState),
      (∀ p ∈ pages, p ≠ []) → st.should_stop = false →
      (mitScrape cfg fetch pages st).results =
          st.results ++
            ((pages.take (cfg.max_pages - st.num_pages)).join.map fetch) ∧
        (mitScrape cfg fetch pages st).dispatched =
          st.dispatched ++
            (pages.take (cfg.max_pages - st.num_pages + 1)).join := by
  intro pages
  induction pages with
  | nil =>
    intro st _ _
    simp [mitScrape]
  | cons pg rest ih =>
    intro st hne hstop
    rw [mitScrape]
    by_cases hk : st.num_pages < cfg.max_pages
    · have hstep : mitPageStep cfg fetch st pg =
          { st with results := st.results ++ pg.map fetch,
                    num_results := st.num_results + (pg.map fetch).length,
                    dispatched := st.dispatched ++ pg,
                    num_pages := st.num_pages + 1 } := by
        rw [mitPageStep, mitPageStep_results,
          mitInnerLoop_no_stop cfg hmr _ _ (by simpa using hk)]
      rw [hstep]
      rw [if_neg (by simp [hstop])]
      obtain ⟨h1, h2⟩ := ih
        { st with results := st.results ++ pg.map fetch,
                  num_results := st.num_results + (pg.map fetch).length,
                  dispatched := st.dispatched ++ pg,
                  num_pages := st.num_pages + 1 }
        (fun p hp => hne p (List.mem_cons_of_mem _ hp)) (by simp [hstop])
      rw [h1, h2]
      have htake1 : cfg.max_pages - st.num_pages =
          (cfg.max_pages - (st.num_pages + 1)) + 1 := by omega
      rw [htake1]
      simp [List.take_succ_cons, List.join_cons, List.map_append,
        List.append_assoc]
    · have hpg : pg ≠ [] := hne pg (List.mem_cons_self _ _)
      obtain ⟨u, us, rfl⟩ := List.exists_cons_of_ne_nil hpg
      have hstep : mitPageStep cfg fetch st (u :: us) =
          { st with dispatched := st.dispatched ++ u :: us,
                    should_stop := true,
                    num_pages := st.num_pages + 1 } := by
        rw [mitPageStep, mitPageStep_results, List.map_cons,
          mitInnerLoop_stops cfg hmr hP (fetch u) (List.map fetch us)
            { st with dispatched := st.dispatched ++ u :: us }
            (Nat.not_lt.1 hk)]
      rw [hstep]
      rw [if_pos rfl]
      have htake0 : cfg.max_pages - st.num_pages = 0 := by omega
      rw [htake0]
      simp

/-- C8 counterexample: with `max_pages = 1` and a site of two one-item
listing pages, the (P+1)-th page's item `"u2"` IS dispatched to
detail-page processing (the limit check only fires inside that page's
result loop), refuting "no items from a (P+1)-th listing page are
dispatched". -/
theorem c8_counterexample :
    (mitScrape ⟨1, 0⟩ (fun u => ⟨"", "", "", "", "", u⟩)
        [["u1"], ["u2"]] mitInit).dispatched = ["u1", "u2"] ∧
    "u2" ∈ (mitScrape ⟨1, 0⟩ (fun u => ⟨"", "", "", "", "", u⟩)
        [["u1"], ["u2"]] mitInit).dispatched ∧
    (mitScrape ⟨1, 0⟩ (fun u => ⟨"", "", "", "", "", u⟩)
        [["u1"], ["u2"]] mitInit).results =
      [⟨"", "", "", "", "", "u1"⟩] := by
  refine ⟨by decide, ?_, by decide⟩
  decide

/-- C8 amended: with `maxPages = P > 0` (and no result limit) on a site of
non-empty listing pages, the run appends to the persisted results exactly
the items of the first `P` listing pages — nothing from a (P+1)-th page is
ever appended — but the (P+1)-th page's items are still dispatched to
detail-page processing before the limit check stops the run. -/
theorem c8_page_limit (cfg : MitConfig) (fetch : String → Record)
    (pages : List (List String)) (hP : 0 < cfg.max_pages)
    (hmr : cfg.max_results = 0) (hne : ∀ p ∈ pages, p ≠ []) :
    (mitScrape cfg fetch pages mitInit).results =
        (pages.take cfg.max_pages).join.map fetch ∧
      (mitScrape cfg fetch pages mitInit).dispatched =
        (pages.take (cfg.max_pages + 1)).join := by
  obtain ⟨h1, h2⟩ := mitScrape_spec cfg fetch hmr hP pages mitInit hne rfl
  rw [h1, h2]
  simp [mitInit]

/-- Witness for C8 at `P = 1` over a three-page site. -/
theorem c8_witness :
    (mitScrape ⟨1, 0⟩ (fun u => ⟨"", "", "", "", "", u⟩)
        [["a"], ["b"], ["c"]] mitInit).results =
        ([["a"], ["b"], ["c"]].take 1).join.map
          (fun u => (⟨"", "", "", "", "", u⟩ : Record)) ∧
      (mitScrape ⟨1, 0⟩ (fun u => ⟨"", "", "", "", "", u⟩)
        [["a"], ["b"], ["c"]] mitInit).dispatched =
        ([["a"], ["b"], ["c"]].take 2).join :=
  c8_page_limit ⟨1, 0⟩ (fun u => ⟨"", "", "", "", "", u⟩)
    [["a"], ["b"], ["c"]] (by decide) (by decide) (by decide)

end Scrape
